import Mathlib

set_option maxRecDepth 8000

namespace DB

/-- Number of bits in a byte; source constant `sNumOfBitsInByte`. -/
def sNumOfBitsInByte : Nat := 8

/-- Model of the source class `byte`: an 8-bit cell stored as `unsigned char mData`.
Here `mData` is a `Nat`; the store performed by `set` truncates modulo 2^8 exactly
as the `unsigned char` assignment does. -/
structure byte where
  mData : Nat
deriving DecidableEq

/-- Model of `byte::set(index, bit)`:
`mData = (mData & ~(1 << shiftAmount)) + (bit << shiftAmount)` with
`shiftAmount = sNumOfBitsInByte - index - 1`. On the 8-bit cell the complement
is `255 ^^^ mask` and the store truncates to 8 bits. -/
def byte.set (b : byte) (index : Nat) (bitv : Bool) : byte :=
  let shiftAmount := sNumOfBitsInByte - index - 1
  ⟨((b.mData &&& (255 ^^^ (1 <<< shiftAmount))) + ((cond bitv 1 0) <<< shiftAmount)) % 256⟩

/-- Model of `byte::get(index)`:
returns `(mData & (1 << shiftAmount)) >> shiftAmount` converted to `bool`. -/
def byte.get (b : byte) (index : Nat) : Bool :=
  let shiftAmount := sNumOfBitsInByte - index - 1
  ((b.mData &&& (1 <<< shiftAmount)) >>> shiftAmount) != 0

/-- Model of the source class `bit_ref`: it aliases one bit of an owner `byte`.
Aliasing is not representable in a pure model, so the handle carries the value
of the owner cell it was resolved to, plus the bit index within it. -/
structure bit_ref where
  mOwner : byte
  mIndexAtOwner : Nat
deriving DecidableEq

/-- Model of `byte::getBitRef(index)`. -/
def byte.getBitRef (b : byte) (index : Nat) : bit_ref :=
  ⟨b, index⟩

/-- Model of the nested struct `IncompleteByte` of `dynamic_bitset`. -/
structure IncompleteByte where
  mByte : byte
  mNumOfBits : Nat
deriving DecidableEq

/-- Model of `IncompleteByte::isFull`. -/
def IncompleteByte.isFull (ib : IncompleteByte) : Bool :=
  ib.mNumOfBits == sNumOfBitsInByte

/-- Model of the container `dynamic_bitset`: the vector of full bytes `mData`
and the trailing `mIncompleteByte`. -/
structure dynamic_bitset where
  mData : List byte
  mIncompleteByte : IncompleteByte
deriving DecidableEq

/-- Default-constructed container: no full bytes, tail count 0, tail cell zero. -/
def dynamic_bitset.empty : dynamic_bitset := ⟨[], ⟨⟨0⟩, 0⟩⟩

/-- Model of `dynamic_bitset::isThereAnIncompleteByte`: `mNumOfBits > 0`. -/
def dynamic_bitset.isThereAnIncompleteByte (s : dynamic_bitset) : Bool :=
  decide (s.mIncompleteByte.mNumOfBits > 0)

/-- Model of the iterator position `(mByteIndex, mBitIndex)` of `IteratorBase`.
The `mSource` pointer is passed separately as the container argument. -/
structure iterator where
  mByteIndex : Nat
  mBitIndex : Nat
deriving DecidableEq

/-- Model of prefix `operator++` of `IteratorBase`:
`if (++mBitIndex == 8) { mBitIndex = 0; ++mByteIndex; }`. -/
def iterator.inc (it : iterator) : iterator :=
  if it.mBitIndex + 1 == sNumOfBitsInByte then ⟨it.mByteIndex + 1, 0⟩
  else ⟨it.mByteIndex, it.mBitIndex + 1⟩

/-- Model of `dynamic_bitset::get(byteIndex, bitIndex)`:
resolves to `mData[byteIndex]` when in range and to the tail cell otherwise. -/
def dynamic_bitset.get (s : dynamic_bitset) (byteIndex bitIndex : Nat) : Bool :=
  let b := if byteIndex < s.mData.length then s.mData.getD byteIndex ⟨0⟩
           else s.mIncompleteByte.mByte
  b.get bitIndex

/-- Model of `dynamic_bitset::getBitRef(byteIndex, bitIndex)`. -/
def dynamic_bitset.getBitRef (s : dynamic_bitset) (byteIndex bitIndex : Nat) : bit_ref :=
  let returnByte := if byteIndex < s.mData.length then s.mData.getD byteIndex ⟨0⟩
                    else s.mIncompleteByte.mByte
  returnByte.getBitRef bitIndex

/-- Model of `dynamic_bitset::push_back(bit)`: write into the tail at its
current count, increment the count, and collapse the tail into `mData` when full. -/
def dynamic_bitset.push_back (s : dynamic_bitset) (bitv : Bool) : dynamic_bitset :=
  let ib : IncompleteByte :=
    ⟨s.mIncompleteByte.mByte.set s.mIncompleteByte.mNumOfBits bitv,
     s.mIncompleteByte.mNumOfBits + 1⟩
  if ib.isFull then ⟨s.mData ++ [ib.mByte], ⟨ib.mByte, 0⟩⟩
  else ⟨s.mData, ib⟩

/-- Model of `dynamic_bitset::push_back(byte)`: appends the byte's 8 bits in
bit order, most significant (position 0) first. -/
def dynamic_bitset.push_back_byte (s : dynamic_bitset) (b : byte) : dynamic_bitset :=
  (List.range sNumOfBitsInByte).foldl (fun acc i => acc.push_back (b.get i)) s

/-- Model of `dynamic_bitset::push_back(const TriviablyCopyableType&)`: a
trivially copyable value is its raw bytes in memory order, appended in turn. -/
def dynamic_bitset.push_back_value (s : dynamic_bitset) (data : List byte) : dynamic_bitset :=
  data.foldl dynamic_bitset.push_back_byte s

/-- Model of `dynamic_bitset::pop_back`: decrement the tail count when the tail
is non-empty; otherwise move the last full byte into the tail with count 7. -/
def dynamic_bitset.pop_back (s : dynamic_bitset) : dynamic_bitset :=
  if s.isThereAnIncompleteByte then
    ⟨s.mData, ⟨s.mIncompleteByte.mByte, s.mIncompleteByte.mNumOfBits - 1⟩⟩
  else
    ⟨s.mData.dropLast, ⟨s.mData.getLastD ⟨0⟩, sNumOfBitsInByte - 1⟩⟩

/-- Model of `dynamic_bitset::clear`: `mData.clear()` and tail count 0; the
tail cell itself is not touched. -/
def dynamic_bitset.clear (s : dynamic_bitset) : dynamic_bitset :=
  ⟨[], ⟨s.mIncompleteByte.mByte, 0⟩⟩

/-- Model of `dynamic_bitset::begin`: position `(0, 0)`. -/
def dynamic_bitset.beginIter (_ : dynamic_bitset) : iterator := ⟨0, 0⟩

/-- Model of `dynamic_bitset::end`: byte index `mData.size()`, bit index the
tail count when a partial tail exists and 0 otherwise. -/
def dynamic_bitset.endIter (s : dynamic_bitset) : iterator :=
  let byteIndex := s.mData.length
  let bitIndex := if s.isThereAnIncompleteByte then s.mIncompleteByte.mNumOfBits else 0
  ⟨byteIndex, bitIndex⟩

/-- Slow-path loop of `getByte`: `for (i = 0; i < 8; i++, ++iterator)` reading a
bit and storing it at position `i` of the byte under construction. -/
def dynamic_bitset.getByteLoop (s : dynamic_bitset) : Nat → Nat → byte → iterator → byte × iterator
  | 0, _, acc, it => (acc, it)
  | n+1, i, acc, it =>
      s.getByteLoop n (i+1) (acc.set i (s.get it.mByteIndex it.mBitIndex)) it.inc

/-- Model of the static `dynamic_bitset::getByte(iterator&)`. The fast path,
taken when `mBitIndex == 0`, returns `mData[mByteIndex]` and leaves the
iterator exactly as it was (the source takes an early `return` before any
increment); the slow path assembles 8 bits, incrementing the iterator 8 times.
The container is threaded through and returned so that write effects, were
there any, would be visible. -/
def dynamic_bitset.getByte (s : dynamic_bitset) (it : iterator) : byte × iterator × dynamic_bitset :=
  if it.mBitIndex == 0 then
    (s.mData.getD it.mByteIndex ⟨0⟩, it, s)
  else
    let r := s.getByteLoop sNumOfBitsInByte 0 ⟨0⟩ it
    (r.1, r.2, s)

/-- Model of the static `dynamic_bitset::extract(char*, size_t, iterator&)`:
fills `amountOfBytesToExtract` destination bytes by repeated `getByte`. -/
def dynamic_bitset.extract : dynamic_bitset → Nat → iterator → List byte × iterator × dynamic_bitset
  | s, 0, it => ([], it, s)
  | s, n+1, it =>
      let r := s.getByte it
      let rest := r.2.2.extract n r.2.1
      (r.1 :: rest.1, rest.2.1, rest.2.2)

/-- Model of `dynamic_bitset::extract<T>(byteIndex, bitIndex)`: constructs its
own temporary iterator at the given position and extracts through it; the
returned container is the state after the call. -/
def dynamic_bitset.extract_pos (s : dynamic_bitset) (numOfBytes byteIndex bitIndex : Nat) :
    List byte × dynamic_bitset :=
  let r := s.extract numOfBytes ⟨byteIndex, bitIndex⟩
  (r.1, r.2.2)

/-- Bits of a byte cell, position 0 (most significant) first. -/
def byte.bits (b : byte) : List Bool := (List.range sNumOfBitsInByte).map b.get

/-- Logical bit sequence of the container: the bits of every full byte followed
by the meaningful bits of the tail. -/
def dynamic_bitset.bits (s : dynamic_bitset) : List Bool :=
  (s.mData.map byte.bits).flatten ++
    (List.range s.mIncompleteByte.mNumOfBits).map s.mIncompleteByte.mByte.get

/-- Well-formed byte cell: the stored `unsigned char` value is below 2^8. -/
def byte.wf (b : byte) : Prop := b.mData < 256

instance : DecidablePred byte.wf := fun b =>
  inferInstanceAs (Decidable (b.mData < 256))

/-- Representation invariant of a reachable container: tail count below 8 and
every stored cell holds an 8-bit value. -/
def dynamic_bitset.Valid (s : dynamic_bitset) : Prop :=
  s.mIncompleteByte.mNumOfBits < sNumOfBitsInByte ∧
    s.mIncompleteByte.mByte.wf ∧ ∀ b ∈ s.mData, b.wf

instance : DecidablePred dynamic_bitset.Valid := fun s => by
  unfold dynamic_bitset.Valid
  infer_instance

/-- Reading `n` bits through iteration: fused read-and-advance, as the
range-for over the container performs. -/
def dynamic_bitset.readRange (s : dynamic_bitset) : iterator → Nat → List Bool
  | _, 0 => []
  | it, n+1 => s.get it.mByteIndex it.mBitIndex :: s.readRange it.inc n

/-- Advancing an iterator `n` single-bit steps. -/
def iterAdvance : iterator → Nat → iterator
  | it, 0 => it
  | it, n+1 => iterAdvance it.inc n

/-- Appending a list of bits one by one with `push_back(bit)`. -/
def dynamic_bitset.pushBits (s : dynamic_bitset) (l : List Bool) : dynamic_bitset :=
  l.foldl dynamic_bitset.push_back s

/-- Mutating operations considered by the tail-accounting invariant. -/
inductive Op where
  | pushb (b : Bool)
  | popb
  | clearOp
deriving DecidableEq

/-- Applies one operation to the container. -/
def dynamic_bitset.applyOp (s : dynamic_bitset) : Op → dynamic_bitset
  | .pushb b => s.push_back b
  | .popb => s.pop_back
  | .clearOp => s.clear

/-- Applies a sequence of operations in order. -/
def dynamic_bitset.applyOps (s : dynamic_bitset) (ops : List Op) : dynamic_bitset :=
  ops.foldl dynamic_bitset.applyOp s

/-- Logical length along an op sequence, starting from length `n`; `none` when
a `pop_back` is attempted on an empty container. -/
def opsLen : Nat → List Op → Option Nat
  | n, [] => some n
  | n, Op.pushb _ :: rest => opsLen (n+1) rest
  | 0, Op.popb :: _ => none
  | n+1, Op.popb :: rest => opsLen n rest
  | _, Op.clearOp :: rest => opsLen 0 rest

end DB

namespace DB

/-- Bounded form of the set-then-get identity, settled by evaluation over all
8-bit cell values. -/
theorem byte.get_set_eq_bounded :
    ∀ x < 256, ∀ i < 8, ∀ v : Bool, (byte.set ⟨x⟩ i v).get i = v := by decide

/-- Bounded form of frame preservation: setting one position leaves every
other position unchanged. -/
theorem byte.get_set_ne_bounded :
    ∀ x < 256, ∀ i < 8, ∀ j < 8, i ≠ j → ∀ v : Bool,
      (byte.set ⟨x⟩ i v).get j = byte.get ⟨x⟩ j := by decide

/-- Bounded form of the bit-ordering convention: position `i` reads bit
`8 - i - 1` of the stored value, so position 0 is the most significant bit. -/
theorem byte.get_testBit_bounded :
    ∀ x < 256, ∀ i < 8, byte.get ⟨x⟩ i = x.testBit (8 - i - 1) := by decide

/-- Result of `byte.set` always fits in 8 bits. -/
theorem byte.set_wf (b : byte) (i : Nat) (v : Bool) : (b.set i v).wf :=
  Nat.mod_lt _ (by norm_num)

/-- Set-then-get at the same position yields the written bit. -/
theorem byte.get_set_eq (b : byte) (hb : b.wf) {i : Nat} (hi : i < 8) (v : Bool) :
    (b.set i v).get i = v := by
  obtain ⟨x⟩ := b
  exact byte.get_set_eq_bounded x hb i hi v

/-- Setting position `i` leaves any other position `j` unchanged. -/
theorem byte.get_set_ne (b : byte) (hb : b.wf) {i j : Nat} (hi : i < 8) (hj : j < 8)
    (hij : i ≠ j) (v : Bool) : (b.set i v).get j = b.get j := by
  obtain ⟨x⟩ := b
  exact byte.get_set_ne_bounded x hb i hi j hj hij v

/-- A byte cell has exactly 8 bits. -/
theorem byte.length_of_bits (b : byte) : b.bits.length = 8 := by
  simp [byte.bits, sNumOfBitsInByte]

/-- Explicit listing of the 8 bits of a byte cell. -/
theorem byte.bits_eq (b : byte) :
    b.bits = [b.get 0, b.get 1, b.get 2, b.get 3, b.get 4, b.get 5, b.get 6, b.get 7] := rfl

/-- Total bit count of the flattened full-byte region. -/
theorem dynamic_bitset.flat_length (data : List byte) :
    ((data.map byte.bits).flatten).length = 8 * data.length := by
  induction data with
  | nil => rfl
  | cons b rest ih =>
      simp only [List.map_cons, List.flatten_cons, List.length_append, ih,
        byte.length_of_bits, List.length_cons]
      ring

/-- Length of the logical bit sequence is `8 * fullByteCount + tailCount`. -/
theorem dynamic_bitset.bits_length (s : dynamic_bitset) :
    s.bits.length = 8 * s.mData.length + s.mIncompleteByte.mNumOfBits := by
  simp only [dynamic_bitset.bits, List.length_append, List.length_map, List.length_range]
  rw [dynamic_bitset.flat_length]

/-- The default-constructed container satisfies the representation invariant. -/
theorem dynamic_bitset.empty_valid : dynamic_bitset.empty.Valid := by decide

end DB

namespace DB

/-- Helper: `getLastD` of a non-empty list is its last element. -/
theorem list_getLastD_eq_getLast {α : Type} (l : List α) (h : l ≠ []) (d : α) :
    l.getLastD d = l.getLast h := by
  rw [List.getLastD_eq_getLast?, List.getLast?_eq_getLast l h, Option.getD_some]

/-- A single-bit append preserves the representation invariant. -/
theorem dynamic_bitset.valid_push (s : dynamic_bitset) (hv : s.Valid) (v : Bool) :
    (s.push_back v).Valid := by
  obtain ⟨hc, hwb, hwd⟩ := hv
  simp only [dynamic_bitset.push_back]
  split
  · refine ⟨by norm_num [sNumOfBitsInByte], byte.set_wf _ _ _, ?_⟩
    intro b hb
    rcases List.mem_append.mp hb with h | h
    · exact hwd b h
    · rw [List.mem_singleton] at h
      subst h
      exact byte.set_wf _ _ _
  · next hfull =>
      simp only [IncompleteByte.isFull, beq_iff_eq, sNumOfBitsInByte] at hfull
      simp only [sNumOfBitsInByte] at hc
      exact ⟨by simp only [sNumOfBitsInByte]; omega, byte.set_wf _ _ _, hwd⟩

/-- A single-bit append appends exactly that bit to the logical sequence. -/
theorem dynamic_bitset.bits_push (s : dynamic_bitset) (hv : s.Valid) (v : Bool) :
    (s.push_back v).bits = s.bits ++ [v] := by
  obtain ⟨hc, hwb, hwd⟩ := hv
  simp only [sNumOfBitsInByte] at hc
  simp only [dynamic_bitset.push_back]
  split
  · next hfull =>
      simp only [IncompleteByte.isFull, beq_iff_eq, sNumOfBitsInByte] at hfull
      have h7 : s.mIncompleteByte.mNumOfBits = 7 := by omega
      simp only [dynamic_bitset.bits, List.map_append, List.flatten_append, h7,
        List.range_zero, List.map_nil, List.append_nil, List.map_cons,
        List.flatten_cons, List.flatten_nil, List.append_nil]
      rw [List.append_assoc]
      congr 1
      have h8 : byte.bits (s.mIncompleteByte.mByte.set 7 v)
          = (List.range 7).map (s.mIncompleteByte.mByte.set 7 v).get
            ++ [(s.mIncompleteByte.mByte.set 7 v).get 7] := by
        rw [byte.bits, sNumOfBitsInByte, show (8:Nat) = 7 + 1 from rfl, List.range_succ,
          List.map_append, List.map_singleton]
      rw [h8, byte.get_set_eq _ hwb (by omega)]
      congr 1
      refine List.map_congr_left fun i hi => ?_
      rw [List.mem_range] at hi
      exact byte.get_set_ne _ hwb (by omega) (by omega) (by omega) v
  · next hfull =>
      simp only [IncompleteByte.isFull, beq_iff_eq, sNumOfBitsInByte] at hfull
      simp only [dynamic_bitset.bits, List.range_succ, List.map_append, List.map_singleton,
        byte.get_set_eq _ hwb (by omega : s.mIncompleteByte.mNumOfBits < 8)]
      rw [← List.append_assoc]
      congr 2
      refine List.map_congr_left fun i hi => ?_
      rw [List.mem_range] at hi
      exact byte.get_set_ne _ hwb (by omega) (by omega) (by omega) v

/-- Appending a list of bits preserves validity and appends it to the sequence. -/
theorem dynamic_bitset.pushBits_spec (l : List Bool) :
    ∀ s : dynamic_bitset, s.Valid →
      (s.pushBits l).Valid ∧ (s.pushBits l).bits = s.bits ++ l := by
  induction l with
  | nil => exact fun s hv => ⟨hv, by simp [dynamic_bitset.pushBits]⟩
  | cons a l ih =>
      intro s hv
      have h1 := dynamic_bitset.valid_push s hv a
      have h2 := dynamic_bitset.bits_push s hv a
      have h3 := ih (s.push_back a) h1
      refine ⟨h3.1, ?_⟩
      have hfold : s.pushBits (a :: l) = (s.push_back a).pushBits l := rfl
      rw [hfold, h3.2, h2, List.append_assoc, List.singleton_append]

/-- Removing the last bit preserves the representation invariant. -/
theorem dynamic_bitset.valid_pop (s : dynamic_bitset) (hv : s.Valid) : s.pop_back.Valid := by
  obtain ⟨hc, hwb, hwd⟩ := hv
  simp only [sNumOfBitsInByte] at hc
  simp only [dynamic_bitset.pop_back]
  split
  · exact ⟨by simp only [sNumOfBitsInByte]; omega, hwb, hwd⟩
  · refine ⟨by norm_num [sNumOfBitsInByte], ?_, ?_⟩
    · by_cases hne : s.mData = []
      · simp [hne, byte.wf]
      · rw [list_getLastD_eq_getLast _ hne]
        exact hwd _ (List.getLast_mem hne)
    · intro b hb
      exact hwd b (List.dropLast_subset _ hb)

/-- Clearing preserves the representation invariant. -/
theorem dynamic_bitset.valid_clear (s : dynamic_bitset) (hv : s.Valid) : s.clear.Valid :=
  ⟨by simp [dynamic_bitset.clear, sNumOfBitsInByte], hv.2.1, by simp [dynamic_bitset.clear]⟩

/-- Logical length grows by one on a single-bit append. -/
theorem dynamic_bitset.len_push (s : dynamic_bitset) (v : Bool) :
    8 * (s.push_back v).mData.length + (s.push_back v).mIncompleteByte.mNumOfBits
      = 8 * s.mData.length + s.mIncompleteByte.mNumOfBits + 1 := by
  simp only [dynamic_bitset.push_back]
  split
  · next hfull =>
      simp only [IncompleteByte.isFull, beq_iff_eq, sNumOfBitsInByte] at hfull
      simp only [List.length_append, List.length_singleton]
      omega
  · show 8 * s.mData.length + (s.mIncompleteByte.mNumOfBits + 1)
        = 8 * s.mData.length + s.mIncompleteByte.mNumOfBits + 1
    omega

/-- Logical length shrinks by one on a removal from a non-empty container. -/
theorem dynamic_bitset.len_pop (s : dynamic_bitset)
    (hne : 8 * s.mData.length + s.mIncompleteByte.mNumOfBits ≠ 0) :
    8 * s.pop_back.mData.length + s.pop_back.mIncompleteByte.mNumOfBits
      = 8 * s.mData.length + s.mIncompleteByte.mNumOfBits - 1 := by
  simp only [dynamic_bitset.pop_back]
  split
  · next h =>
      simp only [dynamic_bitset.isThereAnIncompleteByte, decide_eq_true_eq] at h
      simp only []
      omega
  · next h =>
      simp only [dynamic_bitset.isThereAnIncompleteByte, decide_eq_true_eq] at h
      have h0 : s.mIncompleteByte.mNumOfBits = 0 := by omega
      have hlen : s.mData.length ≠ 0 := by
        intro hz
        rw [hz, h0] at hne
        exact hne rfl
      simp only [List.length_dropLast, sNumOfBitsInByte]
      omega

end DB

namespace DB

/-- Removing the last bit drops exactly the last element of the logical sequence. -/
theorem dynamic_bitset.bits_pop (s : dynamic_bitset) (hne : s.bits ≠ []) :
    s.pop_back.bits = s.bits.dropLast := by
  simp only [dynamic_bitset.pop_back]
  split
  · next h =>
      simp only [dynamic_bitset.isThereAnIncompleteByte, decide_eq_true_eq] at h
      obtain ⟨c, hc⟩ := Nat.exists_eq_succ_of_ne_zero (Nat.pos_iff_ne_zero.mp h)
      simp only [dynamic_bitset.bits, hc, Nat.succ_sub_one, List.range_succ, List.map_append,
        List.map_singleton, ← List.append_assoc, List.dropLast_concat]
  · next h =>
      simp only [dynamic_bitset.isThereAnIncompleteByte, decide_eq_true_eq] at h
      have h0 : s.mIncompleteByte.mNumOfBits = 0 := by omega
      have hd : s.mData ≠ [] := by
        intro hz
        apply hne
        simp [dynamic_bitset.bits, hz, h0]
      simp only [dynamic_bitset.bits, h0, List.range_zero, List.map_nil, List.append_nil,
        sNumOfBitsInByte]
      rw [list_getLastD_eq_getLast _ hd]
      conv_rhs => rw [← List.dropLast_append_getLast hd]
      rw [List.map_append, List.flatten_append, List.map_singleton, List.flatten_cons,
        List.flatten_nil, List.append_nil]
      have hsplit : (s.mData.getLast hd).bits
          = (List.range 7).map (s.mData.getLast hd).get ++ [(s.mData.getLast hd).get 7] := by
        rw [byte.bits, sNumOfBitsInByte, show (8:Nat) = 7 + 1 from rfl, List.range_succ,
          List.map_append, List.map_singleton]
      rw [hsplit, ← List.append_assoc, List.dropLast_concat]

/-- Dropping the first full byte shifts `get` addressing by one byte. -/
theorem dynamic_bitset.get_cons (b : byte) (rest : List byte) (t : IncompleteByte) (k j : Nat) :
    (dynamic_bitset.mk (b :: rest) t).get (k + 1) j = (dynamic_bitset.mk rest t).get k j := by
  simp [dynamic_bitset.get, List.getD_cons_succ, Nat.add_lt_add_iff_right]

/-- Reading through iteration commutes with dropping the first full byte. -/
theorem dynamic_bitset.readRange_cons_shift (b : byte) (rest : List byte) (t : IncompleteByte) :
    ∀ (n k j : Nat),
      (dynamic_bitset.mk (b :: rest) t).readRange ⟨k + 1, j⟩ n
        = (dynamic_bitset.mk rest t).readRange ⟨k, j⟩ n := by
  intro n
  induction n with
  | zero => intro k j; rfl
  | succ n ih =>
      intro k j
      simp only [dynamic_bitset.readRange]
      rw [dynamic_bitset.get_cons]
      congr 1
      by_cases h : j + 1 = sNumOfBitsInByte
      · simpa [iterator.inc, h] using ih (k + 1) 0
      · simpa [iterator.inc, h] using ih k (j + 1)

/-- Unrolling one full byte of iteration from a byte-aligned position. -/
theorem dynamic_bitset.readRange_head (s : dynamic_bitset) (n : Nat) :
    s.readRange ⟨0, 0⟩ (n + 8) =
      [s.get 0 0, s.get 0 1, s.get 0 2, s.get 0 3, s.get 0 4, s.get 0 5, s.get 0 6, s.get 0 7]
        ++ s.readRange ⟨1, 0⟩ n := by
  simp [dynamic_bitset.readRange, iterator.inc, sNumOfBitsInByte]

/-- Reading the meaningful tail bits from the tail-only container. -/
theorem dynamic_bitset.readRange_tail (tb : byte) (c : Nat) (hc : c < 8) :
    (dynamic_bitset.mk [] ⟨tb, c⟩).readRange ⟨0, 0⟩ c = (List.range c).map tb.get := by
  interval_cases c <;>
    simp [dynamic_bitset.readRange, dynamic_bitset.get, iterator.inc, sNumOfBitsInByte,
      List.range_succ]

/-- Reading every logical position through iteration yields the logical sequence. -/
theorem dynamic_bitset.readRange_all (data : List byte) (tb : byte) (c : Nat) (hc : c < 8) :
    (dynamic_bitset.mk data ⟨tb, c⟩).readRange ⟨0, 0⟩ (8 * data.length + c)
      = (dynamic_bitset.mk data ⟨tb, c⟩).bits := by
  induction data with
  | nil =>
      simpa [dynamic_bitset.bits] using dynamic_bitset.readRange_tail tb c hc
  | cons b rest ih =>
      have harith : 8 * (b :: rest).length + c = (8 * rest.length + c) + 8 := by
        simp only [List.length_cons]
        ring
      rw [harith, dynamic_bitset.readRange_head]
      have hget : ∀ j, (dynamic_bitset.mk (b :: rest) ⟨tb, c⟩).get 0 j = b.get j := by
        intro j
        simp [dynamic_bitset.get]
      have hshift := dynamic_bitset.readRange_cons_shift b rest ⟨tb, c⟩ (8 * rest.length + c) 0 0
      rw [hget, hget, hget, hget, hget, hget, hget, hget, hshift, ih]
      simp only [dynamic_bitset.bits, List.map_cons, List.flatten_cons, List.append_assoc]
      rw [byte.bits_eq]

/-- Variant of `readRange_all` stated over the container's projections. -/
theorem dynamic_bitset.readRange_all' (s : dynamic_bitset)
    (hc : s.mIncompleteByte.mNumOfBits < 8) :
    s.readRange ⟨0, 0⟩ (8 * s.mData.length + s.mIncompleteByte.mNumOfBits) = s.bits := by
  obtain ⟨data, tb, c⟩ := s
  exact dynamic_bitset.readRange_all data tb c hc

/-- Advancing by a sum advances by each summand in turn. -/
theorem iterAdvance_add (m : Nat) : ∀ (n : Nat) (it : iterator),
    iterAdvance it (m + n) = iterAdvance (iterAdvance it m) n := by
  induction m with
  | zero =>
      intro n it
      rw [Nat.zero_add]
      rfl
  | succ m ih =>
      intro n it
      rw [show m + 1 + n = (m + n) + 1 by omega]
      show iterAdvance it.inc (m + n) = _
      rw [ih]
      rfl

/-- Eight single steps from a byte-aligned position land on the next byte. -/
theorem iterAdvance_byte (k : Nat) : iterAdvance ⟨k, 0⟩ 8 = ⟨k + 1, 0⟩ := by
  simp [iterAdvance, iterator.inc, sNumOfBitsInByte]

/-- Advancing over whole bytes from a byte-aligned position. -/
theorem iterAdvance_bytes (len : Nat) : ∀ k, iterAdvance ⟨k, 0⟩ (8 * len) = ⟨k + len, 0⟩ := by
  induction len with
  | zero => intro k; rfl
  | succ len ih =>
      intro k
      rw [show 8 * (len + 1) = 8 + 8 * len by ring, iterAdvance_add, iterAdvance_byte, ih]
      congr 1
      omega

/-- Advancing by fewer than 8 steps from a byte-aligned position stays in the byte. -/
theorem iterAdvance_bits (c : Nat) (hc : c < 8) (k : Nat) : iterAdvance ⟨k, 0⟩ c = ⟨k, c⟩ := by
  interval_cases c <;> simp [iterAdvance, iterator.inc, sNumOfBitsInByte]

end DB

namespace DB

/-- End position is the pair of full-byte count and tail count. -/
theorem dynamic_bitset.endIter_eq (s : dynamic_bitset) :
    s.endIter = ⟨s.mData.length, s.mIncompleteByte.mNumOfBits⟩ := by
  simp only [dynamic_bitset.endIter, dynamic_bitset.isThereAnIncompleteByte]
  by_cases h : s.mIncompleteByte.mNumOfBits > 0
  · simp [h]
  · have h0 : s.mIncompleteByte.mNumOfBits = 0 := by omega
    simp [h0]

/-- Container holding the two bytes 0x12, 0x34, all appends byte-aligned. -/
def sampleTwoBytes : dynamic_bitset :=
  dynamic_bitset.push_back_value .empty [⟨0x12⟩, ⟨0x34⟩]

/-- C1: the claim states that on a byte-aligned cursor (bit index 0) `getByte`
returns the full byte cell stored at that byte index AND advances the cursor by
exactly 8 bits. On the container holding bytes 0x12, 0x34 with cursor (0,0),
the code does return the stored cell 0x12, but it leaves the cursor at (0,0)
rather than at (1,0), the position an 8-bit advance reaches: the fast path
returns before the iterator is ever incremented, contrary to the claim and to
the source's own comment that the function increments the iterator. -/
theorem c1_getByte_aligned_fast_path :
    (sampleTwoBytes.getByte ⟨0, 0⟩).1 = sampleTwoBytes.mData.getD 0 ⟨0⟩ ∧
    (sampleTwoBytes.getByte ⟨0, 0⟩).1 = ⟨0x12⟩ ∧
    (sampleTwoBytes.getByte ⟨0, 0⟩).2.1 = ⟨0, 0⟩ ∧
    iterAdvance ⟨0, 0⟩ 8 = ⟨1, 0⟩ ∧
    (sampleTwoBytes.getByte ⟨0, 0⟩).2.1 ≠ iterAdvance ⟨0, 0⟩ 8 := by decide

/-- Container after pushing the raw little-endian bytes of the 4-byte value
0x12345678 onto the empty container. -/
def sampleValue32 : dynamic_bitset :=
  dynamic_bitset.push_back_value .empty [⟨0x78⟩, ⟨0x56⟩, ⟨0x34⟩, ⟨0x12⟩]

/-- C2: the claim states that `push_back(v)` then `extract<T>(0,0)` reproduces
`v` byte-for-byte, concretely that pushing 0x12345678 then `extract<uint32_t>(0,0)`
returns 0x12345678. The bytes are stored correctly, but the extraction returns
the first byte four times (raw value 0x78787878): every `getByte` call hits the
byte-aligned fast path, which never advances the iterator. -/
theorem c2_push_then_extract_not_identity :
    sampleValue32.mData = [⟨0x78⟩, ⟨0x56⟩, ⟨0x34⟩, ⟨0x12⟩] ∧
    (sampleValue32.extract_pos 4 0 0).1 = [⟨0x78⟩, ⟨0x78⟩, ⟨0x78⟩, ⟨0x78⟩] ∧
    (sampleValue32.extract_pos 4 0 0).1 ≠ [⟨0x78⟩, ⟨0x56⟩, ⟨0x34⟩, ⟨0x12⟩] := by decide

/-- Container whose logical content is the 16 bits of bytes 0xAA, 0xBB starting
at bit offset 0. -/
def alignedContent : dynamic_bitset :=
  dynamic_bitset.push_back_value .empty [⟨0xAA⟩, ⟨0xBB⟩]

/-- Container whose logical content is one padding bit followed by the same
16 bits of bytes 0xAA, 0xBB, so the payload starts at bit offset 1. -/
def offsetContent : dynamic_bitset :=
  dynamic_bitset.push_back_value (dynamic_bitset.push_back .empty false) [⟨0xAA⟩, ⟨0xBB⟩]

/-- C3: the claim states extraction of the same underlying bit content yields
the same bytes at every starting bit offset 0..7. For the 16-bit payload
0xAA 0xBB, extraction beginning at offset 1 (slow path) returns the payload
[0xAA, 0xBB], but extraction beginning at offset 0 (fast path) returns
[0xAA, 0xAA]: the fast path never advances the iterator, so every subsequent
byte repeats the first. The two paths disagree. -/
theorem c3_fast_slow_paths_disagree :
    (offsetContent.extract_pos 2 0 1).1 = [⟨0xAA⟩, ⟨0xBB⟩] ∧
    (alignedContent.extract_pos 2 0 0).1 = [⟨0xAA⟩, ⟨0xAA⟩] ∧
    (alignedContent.extract_pos 2 0 0).1 ≠ (offsetContent.extract_pos 2 0 1).1 := by decide

/-- C4: appending any finite list of booleans one by one to the empty container
and reading positions from begin onward through iteration yields the identical
list; the logical bit length `8 * fullBytes + tailCount` equals the number of
bits appended, and advancing the begin iterator by that count lands exactly on
the end iterator. -/
theorem c4_push_iterate_round_trip (l : List Bool) :
    (dynamic_bitset.empty.pushBits l).readRange
        ((dynamic_bitset.empty.pushBits l).beginIter) l.length = l ∧
    8 * (dynamic_bitset.empty.pushBits l).mData.length
        + (dynamic_bitset.empty.pushBits l).mIncompleteByte.mNumOfBits = l.length ∧
    iterAdvance ((dynamic_bitset.empty.pushBits l).beginIter) l.length
      = (dynamic_bitset.empty.pushBits l).endIter := by
  obtain ⟨hval, hbits⟩ :=
    dynamic_bitset.pushBits_spec l dynamic_bitset.empty dynamic_bitset.empty_valid
  have hemp : dynamic_bitset.empty.bits = [] := rfl
  rw [hemp, List.nil_append] at hbits
  have hc8 : (dynamic_bitset.empty.pushBits l).mIncompleteByte.mNumOfBits < 8 := by
    have h := hval.1
    simpa [sNumOfBitsInByte] using h
  have hlen : 8 * (dynamic_bitset.empty.pushBits l).mData.length
      + (dynamic_bitset.empty.pushBits l).mIncompleteByte.mNumOfBits = l.length := by
    rw [← dynamic_bitset.bits_length, hbits]
  refine ⟨?_, hlen, ?_⟩
  · have hr := dynamic_bitset.readRange_all' _ hc8
    rw [hlen, hbits] at hr
    exact hr
  · rw [show (dynamic_bitset.empty.pushBits l).beginIter = (⟨0, 0⟩ : iterator) from rfl,
      dynamic_bitset.endIter_eq, ← hlen, iterAdvance_add, iterAdvance_bytes, Nat.zero_add,
      iterAdvance_bits _ hc8]

/-- Tail accounting along any op sequence, generalized over the start state. -/
theorem dynamic_bitset.applyOps_accounting :
    ∀ (ops : List Op) (s : dynamic_bitset) (n m : Nat), s.Valid →
      8 * s.mData.length + s.mIncompleteByte.mNumOfBits = n →
      opsLen n ops = some m →
      (s.applyOps ops).Valid ∧
        8 * (s.applyOps ops).mData.length + (s.applyOps ops).mIncompleteByte.mNumOfBits = m := by
  intro ops
  induction ops with
  | nil =>
      intro s n m hv hlen h
      simp only [opsLen, Option.some_inj] at h
      subst h
      exact ⟨hv, hlen⟩
  | cons op rest ih =>
      intro s n m hv hlen h
      cases op with
      | pushb b =>
          simp only [opsLen] at h
          exact ih (s.push_back b) (n + 1) m (dynamic_bitset.valid_push s hv b)
            (by rw [dynamic_bitset.len_push, hlen]) h
      | popb =>
          cases n with
          | zero =>
              simp only [opsLen] at h
              exact Option.noConfusion h
          | succ n =>
              simp only [opsLen] at h
              refine ih s.pop_back n m (dynamic_bitset.valid_pop s hv) ?_ h
              rw [dynamic_bitset.len_pop s (by omega), hlen]
              omega
      | clearOp =>
          simp only [opsLen] at h
          refine ih s.clear 0 m (dynamic_bitset.valid_clear s hv) ?_ h
          simp [dynamic_bitset.clear]

/-- C5: after any sequence of push, pop and clear operations from the empty
container in which every pop acts on a non-empty state, the tail count is in
[0,8) and the logical length `8 * fullBytes + tailCount` equals the running
length the operations prescribe. -/
theorem c5_tail_accounting (ops : List Op) (n : Nat) (h : opsLen 0 ops = some n) :
    (dynamic_bitset.empty.applyOps ops).mIncompleteByte.mNumOfBits < 8 ∧
      8 * (dynamic_bitset.empty.applyOps ops).mData.length
        + (dynamic_bitset.empty.applyOps ops).mIncompleteByte.mNumOfBits = n := by
  obtain ⟨hval, hlen⟩ := dynamic_bitset.applyOps_accounting ops dynamic_bitset.empty 0 n
    dynamic_bitset.empty_valid rfl h
  exact ⟨by simpa [sNumOfBitsInByte] using hval.1, hlen⟩

/-- Witness for C5 at the concrete op sequence push true, push false, pop. -/
theorem c5_tail_accounting_witness :
    opsLen 0 [Op.pushb true, Op.pushb false, Op.popb] = some 1 ∧
    ((dynamic_bitset.empty.applyOps [Op.pushb true, Op.pushb false, Op.popb]).mIncompleteByte.mNumOfBits < 8 ∧
      8 * (dynamic_bitset.empty.applyOps [Op.pushb true, Op.pushb false, Op.popb]).mData.length
        + (dynamic_bitset.empty.applyOps [Op.pushb true, Op.pushb false, Op.popb]).mIncompleteByte.mNumOfBits = 1) :=
  ⟨by decide, c5_tail_accounting [Op.pushb true, Op.pushb false, Op.popb] 1 (by decide)⟩

end DB

namespace DB

/-- C6: for any valid non-empty container, removing the last bit and then
appending the bit that was at the last logical position restores the original
logical bit sequence, same length and same value at every position. -/
theorem c6_pop_then_push_restores (s : dynamic_bitset) (hv : s.Valid) (hne : s.bits ≠ []) :
    (s.pop_back.push_back (s.bits.getLastD false)).bits = s.bits := by
  rw [dynamic_bitset.bits_push _ (dynamic_bitset.valid_pop s hv),
    dynamic_bitset.bits_pop s hne, list_getLastD_eq_getLast _ hne]
  exact List.dropLast_append_getLast hne

/-- Container holding the three bits true, false, true. -/
def sampleThreeBits : dynamic_bitset :=
  dynamic_bitset.empty.pushBits [true, false, true]

/-- Witness for C6 at the concrete container holding true, false, true. -/
theorem c6_pop_then_push_restores_witness :
    sampleThreeBits.Valid ∧ sampleThreeBits.bits ≠ [] ∧
    (sampleThreeBits.pop_back.push_back (sampleThreeBits.bits.getLastD false)).bits
      = sampleThreeBits.bits :=
  ⟨by decide, by decide, c6_pop_then_push_restores sampleThreeBits (by decide) (by decide)⟩

/-- Container holding nine pushed bits: one full byte plus a one-bit tail. -/
def nineBits : dynamic_bitset :=
  dynamic_bitset.empty.pushBits [true, false, true, true, false, false, true, false, true]

/-- C7: when `pop_back` runs on a container whose tail holds 0 meaningful bits
and which has at least one full byte, the last full byte moves into the tail,
the tail count becomes 7 (the former byte's least significant bit is dropped,
so the logical sequence loses exactly its last element), and the full-byte
sequence shrinks by one; concretely, after pushing 9 bits there is one full
byte and a 1-bit tail, and two pops leave 0 full bytes and tail count 7. -/
theorem c7_pop_back_empty_tail (s : dynamic_bitset) (h0 : s.mIncompleteByte.mNumOfBits = 0)
    (hne : s.mData ≠ []) :
    (s.pop_back.mData = s.mData.dropLast ∧
     s.pop_back.mIncompleteByte.mByte = s.mData.getLastD ⟨0⟩ ∧
     s.pop_back.mIncompleteByte.mNumOfBits = 7 ∧
     s.pop_back.bits = s.bits.dropLast) ∧
    (nineBits.mData.length = 1 ∧ nineBits.mIncompleteByte.mNumOfBits = 1 ∧
     nineBits.pop_back.pop_back.mData.length = 0 ∧
     nineBits.pop_back.pop_back.mIncompleteByte.mNumOfBits = 7) := by
  constructor
  · have hpop : s.pop_back = ⟨s.mData.dropLast, ⟨s.mData.getLastD ⟨0⟩, 7⟩⟩ := by
      simp [dynamic_bitset.pop_back, dynamic_bitset.isThereAnIncompleteByte, h0,
        sNumOfBitsInByte]
    refine ⟨by rw [hpop], by rw [hpop], by rw [hpop], ?_⟩
    apply dynamic_bitset.bits_pop
    intro hz
    apply hne
    have hl := dynamic_bitset.bits_length s
    rw [hz, h0] at hl
    simp only [List.length_nil] at hl
    exact List.length_eq_zero.mp (by omega)
  · decide

/-- Nine pushed bits followed by one pop: tail count 0, one full byte left. -/
def nineBitsPopped : dynamic_bitset := nineBits.pop_back

/-- Witness for C7: the second pop of the nine-bit scenario hits the
empty-tail path. -/
theorem c7_pop_back_empty_tail_witness :
    nineBitsPopped.mIncompleteByte.mNumOfBits = 0 ∧ nineBitsPopped.mData ≠ [] ∧
    ((nineBitsPopped.pop_back.mData = nineBitsPopped.mData.dropLast ∧
      nineBitsPopped.pop_back.mIncompleteByte.mByte = nineBitsPopped.mData.getLastD ⟨0⟩ ∧
      nineBitsPopped.pop_back.mIncompleteByte.mNumOfBits = 7 ∧
      nineBitsPopped.pop_back.bits = nineBitsPopped.bits.dropLast) ∧
     (nineBits.mData.length = 1 ∧ nineBits.mIncompleteByte.mNumOfBits = 1 ∧
      nineBits.pop_back.pop_back.mData.length = 0 ∧
      nineBits.pop_back.pop_back.mIncompleteByte.mNumOfBits = 7)) :=
  ⟨by decide, by decide, c7_pop_back_empty_tail nineBitsPopped (by decide) (by decide)⟩

/-- C8: for every 8-bit cell, position in [0,8) and boolean, `set` overwrites
exactly the addressed bit and leaves the other positions unchanged, `get`
returns the stored bit, and position `i` addresses bit `8 - i - 1` of the
underlying representation, so position 0 is the most significant bit. -/
theorem c8_byte_set_get (b : byte) (hb : b.wf) (i j : Nat) (hi : i < 8) (hj : j < 8)
    (v : Bool) :
    (b.set i v).get i = v ∧
    (j ≠ i → (b.set i v).get j = b.get j) ∧
    b.get i = b.mData.testBit (8 - i - 1) := by
  refine ⟨byte.get_set_eq b hb hi v, fun hji => byte.get_set_ne b hb hi hj (Ne.symm hji) v, ?_⟩
  obtain ⟨x⟩ := b
  exact byte.get_testBit_bounded x hb i hi

/-- Witness for C8 at the cell 0xB2, positions 0 and 3, value true. -/
theorem c8_byte_set_get_witness :
    byte.wf ⟨0xB2⟩ ∧ (0 : Nat) < 8 ∧ (3 : Nat) < 8 ∧
    ((byte.set ⟨0xB2⟩ 0 true).get 0 = true ∧
     ((3 : Nat) ≠ 0 → (byte.set ⟨0xB2⟩ 0 true).get 3 = byte.get ⟨0xB2⟩ 3) ∧
     byte.get ⟨0xB2⟩ 0 = (0xB2 : Nat).testBit (8 - 0 - 1)) :=
  ⟨by decide, by decide, by decide,
    c8_byte_set_get ⟨0xB2⟩ (by decide) 0 3 (by decide) (by decide) true⟩

/-- A `getByte` call returns the container it was given, unchanged. -/
theorem dynamic_bitset.getByte_state (s : dynamic_bitset) (it : iterator) :
    (s.getByte it).2.2 = s := by
  unfold dynamic_bitset.getByte
  split <;> rfl

/-- Byte extraction returns the container it was given, unchanged. -/
theorem dynamic_bitset.extract_state (n : Nat) :
    ∀ (s : dynamic_bitset) (it : iterator), (s.extract n it).2.2 = s := by
  induction n with
  | zero => intro s it; rfl
  | succ n ih =>
      intro s it
      show ((s.getByte it).2.2.extract n (s.getByte it).2.1).2.2 = s
      rw [ih, dynamic_bitset.getByte_state]

/-- C9: the position-based extraction overload builds its own temporary cursor
and leaves the container's observable state unchanged: full-byte sequence,
tail byte and tail count are identical before and after the call. -/
theorem c9_position_extract_state_unchanged (s : dynamic_bitset)
    (n byteIndex bitIndex : Nat) :
    (s.extract_pos n byteIndex bitIndex).2.mData = s.mData ∧
    (s.extract_pos n byteIndex bitIndex).2.mIncompleteByte.mByte
      = s.mIncompleteByte.mByte ∧
    (s.extract_pos n byteIndex bitIndex).2.mIncompleteByte.mNumOfBits
      = s.mIncompleteByte.mNumOfBits := by
  have h : (s.extract_pos n byteIndex bitIndex).2 = s :=
    dynamic_bitset.extract_state n s ⟨byteIndex, bitIndex⟩
  rw [h]
  exact ⟨rfl, rfl, rfl⟩

/-- C10: with assertions compiled out, `get` and `getBitRef` are total; any
byte index at or past the full-byte count resolves to the tail byte cell, so
an out-of-range read silently returns a bit of the (possibly stale) tail cell
instead of indexing the full-byte sequence out of bounds. -/
theorem c10_out_of_range_resolves_to_tail (s : dynamic_bitset) (byteIndex bitIndex : Nat)
    (hb : s.mData.length ≤ byteIndex) (_hi : bitIndex < 8) :
    s.get byteIndex bitIndex = s.mIncompleteByte.mByte.get bitIndex ∧
    s.getBitRef byteIndex bitIndex = s.mIncompleteByte.mByte.getBitRef bitIndex := by
  constructor
  · simp [dynamic_bitset.get, Nat.not_lt.mpr hb]
  · simp [dynamic_bitset.getBitRef, Nat.not_lt.mpr hb]

/-- Container holding a single pushed bit: no full bytes, tail count 1. -/
def oneBit : dynamic_bitset := dynamic_bitset.empty.pushBits [true]

/-- Witness for C10: reading byte index 5 of a container with no full bytes
resolves to the tail cell. -/
theorem c10_out_of_range_resolves_to_tail_witness :
    oneBit.mData.length ≤ 5 ∧ (2 : Nat) < 8 ∧
    (oneBit.get 5 2 = oneBit.mIncompleteByte.mByte.get 2 ∧
     oneBit.getBitRef 5 2 = oneBit.mIncompleteByte.mByte.getBitRef 2) :=
  ⟨by decide, by decide, c10_out_of_range_resolves_to_tail oneBit 5 2 (by decide) (by decide)⟩

end DB
